import Mathlib

/-!
Shallow embedding of `format_eng` from `src/lib.rs` of NREL/rust_eng_fmt.

An `f64` input is modelled as its IEEE sign bit (`neg : Bool`) together with
its exact magnitude (`a : ℚ`); arithmetic is exact rational arithmetic.
The source observes `x.abs().log10()` only through `floor`, `ceil`,
`fract() == 0`, truncating casts and sign tests; for a positive rational
magnitude these reduce to the integer `⌊log10 a⌋` (here `qlog10 a`) and the
test whether `a` is an exact power of ten (`isPow10 a`), which determine
every branch of the source.  `f64::round` (round half away from zero) is
`rustRound`; Rust's fixed-point rendering `format!("{v:.n}")` is `fmtF64`.
Division by a positive power of ten and rounding preserve the IEEE sign
bit, so the sign bit of the rendered mantissa equals the sign bit `neg` of
the input; the pipeline is therefore carried out on the magnitude with
`neg` used exactly where the source's formatting prints the sign.
-/

/-! ## Decimal digit strings -/

/-- Little-endian base-10 digits, structurally recursive on a fuel argument
so that the kernel can evaluate it (`natDigits` below supplies fuel). -/
def digitsRev : ℕ → ℕ → List ℕ
  | 0, _ => []
  | _ + 1, 0 => []
  | fuel + 1, n + 1 => (n + 1) % 10 :: digitsRev fuel ((n + 1) / 10)

/-- Little-endian base-10 digits of `n` (empty for `0`). -/
def natDigits (n : ℕ) : List ℕ := digitsRev n n

/-- The character for a decimal digit `d < 10`. -/
def natDigitChar (d : ℕ) : Char := Char.ofNat (48 + d)

/-- Decimal rendering of a natural number, as Rust's `Display` prints it. -/
def natDecStr (n : ℕ) : String :=
  if n = 0 then "0" else String.mk ((natDigits n).reverse.map natDigitChar)

/-- Decimal rendering of an integer, as Rust's `Display` for `i32` prints it
(used for the exponent suffix `e{exp_eng}`). -/
def intDecStr (i : ℤ) : String :=
  (if i < 0 then "-" else "") ++ natDecStr i.natAbs

/-- `⌊log10 n⌋` for `n ≥ 1`: one less than the number of decimal digits. -/
def nlog10 (n : ℕ) : ℕ := (natDigits n).length - 1

/-! ## Powers of ten over ℚ -/

/-- `10^n` as a rational, by structural recursion (kernel-evaluable). -/
def pow10N : ℕ → ℚ
  | 0 => 1
  | n + 1 => 10 * pow10N n

/-- `10_f64.powi(k)`, idealized as an exact rational power of ten.  The
compiler-rt lowering of `powi` saturates: `10_f64.powi(-309)` computes
`1/10^309 = 1/inf = 0.0`, so for magnitudes whose engineering exponent is
`-309` or below the source divides by zero and prints an `inf` mantissa.
This model is exact there; theorems about the scaled mantissa therefore
carry an explicit `-309 < exp_eng` range hypothesis where that matters. -/
def qpow10 (k : ℤ) : ℚ := if 0 ≤ k then pow10N k.toNat else (pow10N (-k).toNat)⁻¹

/-! ## Rounding -/

/-- `f64::round`: round to the nearest integer, ties away from zero. -/
def rustRound (q : ℚ) : ℤ := if 0 ≤ q then ⌊q + 1 / 2⌋ else -⌊-q + 1 / 2⌋

/-- Rounding used by Rust's fixed-precision float formatting: the printed
digits are the correctly rounded decimal of the value, ties to even.  (In
this development it is only ever applied to exact integers.) -/
def fmtRound (q : ℚ) : ℤ :=
  if q - ⌊q⌋ < 1 / 2 then ⌊q⌋
  else if 1 / 2 < q - ⌊q⌋ then ⌊q⌋ + 1
  else if ⌊q⌋ % 2 = 0 then ⌊q⌋ else ⌊q⌋ + 1

/-- Pad a digit string with leading zeros to width `n`. -/
def zeroPad (n : ℕ) (s : String) : String :=
  String.mk (List.replicate (n - s.length) '0') ++ s

/-- Rust's `format!("{v:.n}")` applied to an f64 with sign bit `neg` and
magnitude `q ≥ 0`: `n` digits after the decimal point, no point if `n = 0`. -/
def fmtF64 (neg : Bool) (q : ℚ) (n : ℕ) : String :=
  let m := (fmtRound (q * pow10N n)).toNat
  (if neg then "-" else "") ++ natDecStr (m / 10 ^ n) ++
    (if n = 0 then "" else "." ++ zeroPad n (natDecStr (m % 10 ^ n)))

/-! ## The magnitude analysis of `format_eng` (src/lib.rs lines 61-100) -/

/-- `⌊log10 a⌋` for a positive rational `a`, via decimal digit counts. -/
def qlog10 (a : ℚ) : ℤ :=
  if 1 ≤ a then (nlog10 ⌊a⌋.toNat : ℤ)
  else if a * pow10N (nlog10 ⌊a⁻¹⌋.toNat) = 1 then -(nlog10 ⌊a⁻¹⌋.toNat : ℤ)
  else -(nlog10 ⌊a⁻¹⌋.toNat : ℤ) - 1

/-- `abs_log10.fract() == 0.`: the magnitude is an exact power of ten
(f64 `log10` is exactly an integer precisely on exact powers of ten). -/
def isPow10 (a : ℚ) : Prop := a = qpow10 (qlog10 a)

instance (a : ℚ) : Decidable (isPow10 a) := by unfold isPow10; infer_instance

/-- `exp_sci` (src/lib.rs lines 63-67): `floor` of the log for magnitudes
`≥ 1`, `ceil` for magnitudes `< 1`. -/
def exp_sci (a : ℚ) : ℤ :=
  if 1 ≤ a then qlog10 a
  else if isPow10 a then qlog10 a else qlog10 a + 1

/-- `exp_eng` (src/lib.rs lines 70-76), the engineering-notation exponent;
Rust's `%` on `i32` is `Int.tmod`. -/
def exp_eng (a : ℚ) : ℤ :=
  if 1 ≤ a then exp_sci a - Int.tmod (qlog10 a) 3
  else if isPow10 a ∧ (-qlog10 a).toNat % 3 = 0 then exp_sci a - Int.tmod (qlog10 a) 3
  else exp_sci a - Int.tmod (if isPow10 a then qlog10 a else qlog10 a + 1) 3 - 3

/-- `n_left_of_dec` (src/lib.rs lines 86-94): digits left of the decimal
point after scaling to the engineering decade.  In the third branch the
source truncates the (integral) log with `as i32`, in the fourth it takes
`ceil`; both come out as `qlog10 a + 1` there. -/
def n_left_of_dec (a : ℚ) : ℤ :=
  if 1 < a then Int.tmod (qlog10 a) 3 + 1
  else if a = 1 then 1
  else if isPow10 a then 3 - Int.tmod (-(qlog10 a + 1)) 3
  else 3 - Int.tmod (-(qlog10 a + 1)) 3

/-- The mantissa before rounding (src/lib.rs lines 78-82), on magnitudes:
`x` itself if `|exp_eng| ≤ 2`, else `x / 10^exp_eng`. -/
def x_base_pre (a : ℚ) : ℚ :=
  if (exp_eng a).natAbs ≤ 2 then a else a / qpow10 (exp_eng a)

/-- The mantissa after the scale-round-rescale step (src/lib.rs lines
104-106), on magnitudes. -/
def x_base (a : ℚ) (sf : ℕ) : ℚ :=
  let exp : ℤ := (sf : ℤ) - n_left_of_dec a
  (rustRound (x_base_pre a * qpow10 exp) : ℚ) * qpow10 (-exp)

/-- `format_eng` (src/lib.rs lines 52-112) on the sign bit `neg` and the
magnitude `a` of the f64 input.  The two `assert!` panics are modelled as
`Except.error`. -/
def format_eng (neg : Bool) (a : ℚ) (sf? : Option ℕ) : Except String String :=
  let sf := sf?.getD 3
  if sf < 1 then .error "`format_eng` arg `sf` must be at least 1."
  else if a = 0 then .ok (fmtF64 neg 0 (sf - 1))
  else if 3 < n_left_of_dec a then
    .error ("n_left_of_dec: " ++ intDecStr (n_left_of_dec a) ++ " exceeds 3")
  else
    let n_dec : ℤ := (sf : ℤ) - n_left_of_dec a
    if 0 ≤ exp_eng a ∧ exp_eng a ≤ 2 then
      .ok (fmtF64 neg (x_base a sf) (max n_dec 0).toNat)
    else
      .ok (fmtF64 neg (x_base a sf) (max n_dec 0).toNat ++ "e" ++ intDecStr (exp_eng a))

/-- `format_eng` on an ordinary (not negative-zero) f64 value `x`. -/
def format_engQ (x : ℚ) (sf? : Option ℕ) : Except String String :=
  format_eng (decide (x < 0)) |x| sf?

/-! ## Output parsing (used only to state properties of the printed string) -/

/-- Number of digits in the integer part of a rendered number: the digits
before the decimal point (or all digits when no point is printed), ignoring
a leading minus sign and anything from the exponent marker on. -/
def intDigitsOf (s : String) : ℕ :=
  ((s.data.dropWhile (fun c => c == '-')).takeWhile (fun c => c.isDigit)).length

/-- The digit characters of the integer part of a rendered number. -/
def intDigitChars (s : String) : List Char :=
  (s.data.dropWhile (fun c => c == '-')).takeWhile (fun c => c.isDigit)

/-- Value of a big-endian list of decimal digit characters. -/
def digitsVal (l : List Char) : ℕ :=
  l.foldl (fun acc c => 10 * acc + (c.toNat - 48)) 0

/-- Parse a (possibly sign-prefixed) decimal integer rendering. -/
def parseIntStr (l : List Char) : ℤ :=
  match l with
  | [] => 0
  | c :: rest => if c = '-' then -(digitsVal rest : ℤ) else digitsVal (c :: rest)

/-- The exponent printed after the letter `e`, when present. -/
def expSuffix (s : String) : Option ℤ :=
  match s.data.dropWhile (fun c => !(c == 'e')) with
  | [] => none
  | _ :: rest => some (parseIntStr rest)

/-- Scale-round-rescale exactly as the spec words it: multiply by `10^d`,
round to the nearest integer (ties away from zero), divide back by `10^d`. -/
def specScaleRoundRescale (q : ℚ) (d : ℤ) : ℚ :=
  (rustRound (q * qpow10 d) : ℚ) / qpow10 d

/-! ## Derived views of the pipeline (abbreviations used by the theorems) -/

/-- The integer produced by the scale-round step of `format_eng`. -/
def rVal (a : ℚ) (sf : ℕ) : ℤ :=
  rustRound (x_base_pre a * qpow10 ((sf:ℤ) - n_left_of_dec a))

/-- The number of digits printed after the decimal point (`n_dec.max(0)`). -/
def nFrac (a : ℚ) (sf : ℕ) : ℕ := (max ((sf:ℤ) - n_left_of_dec a) 0).toNat

/-- All digits of the rendered mantissa, as one natural number scaled to
`nFrac` fractional positions. -/
def mVal (a : ℚ) (sf : ℕ) : ℕ :=
  (rVal a sf).toNat * 10 ^ (n_left_of_dec a - (sf:ℤ)).toNat

/-- The integer part of the rendered mantissa. -/
def ipVal (a : ℚ) (sf : ℕ) : ℕ := mVal a sf / 10 ^ nFrac a sf

deriving instance DecidableEq for Except

attribute [local semireducible] Rat.mul Rat.add Rat.sub Rat.inv Rat.ofScientific

set_option maxRecDepth 10000

-- Regression checks: the embedding reproduces every unit test of src/lib.rs
-- (decimal literals are taken as exact rationals).
example : format_engQ 2 none = .ok "2.00" := by decide
example : format_engQ (3141592653589793 / 10 ^ 16) none = .ok "314e-3" := by decide
example : format_engQ (1 / 100) none = .ok "10.0e-3" := by decide
example : format_engQ (1 / 1000) none = .ok "1.00e-3" := by decide
example : format_engQ (1 / 10) none = .ok "100e-3" := by decide
example : format_engQ (1 / 10 ^ 4) none = .ok "100e-6" := by decide
example : format_engQ (1 / 10 ^ 6) none = .ok "1.00e-6" := by decide
example : format_engQ 1000 none = .ok "1.00e3" := by decide
example : format_engQ 1 none = .ok "1.00" := by decide
example : format_engQ 10 none = .ok "10.0" := by decide
example : format_engQ (33333 / 1000) (some 7) = .ok "33.33300" := by decide
example : format_engQ (66666 / 1000) none = .ok "66.7" := by decide
example : format_engQ (33333 / 100) none = .ok "333" := by decide
example : format_engQ (66666 / 100) none = .ok "667" := by decide
example : format_engQ (33333 / 10) none = .ok "3.33e3" := by decide
example : format_engQ (66666 / 10) none = .ok "6.67e3" := by decide
example : format_engQ 33333000 none = .ok "33.3e6" := by decide
example : format_engQ 66666000 none = .ok "66.7e6" := by decide
example : format_engQ (-(62831853 / 10 ^ 7)) (some 2) = .ok "-6.3" := by decide
example : format_engQ (62831853 / 100) (some 1) = .ok "600e3" := by decide
example : format_engQ (31415926 / 10 ^ 7) (some 1) = .ok "3" := by decide
example : format_engQ 0 (some 5) = .ok "0.0000" := by decide
example : format_engQ 0 none = .ok "0.00" := by decide
example : format_engQ (6022 / 10 ^ 26) none = .ok "60.2e-24" := by decide
example : format_engQ (99996 / 10 ^ 4) (some 3) = .ok "10.00" := by decide
example : format_engQ (99996 / 100) (some 3) = .ok "1000" := by decide
example : format_engQ 0 (some 1) = .ok "0" := by decide
example : format_eng true 0 (some 3) = .ok "-0.00" := by decide

/-! ## Powers of ten: basic lemmas -/

theorem pow10N_eq (n : ℕ) : pow10N n = (10 : ℚ) ^ n := by
  induction n with
  | zero => rfl
  | succ n ih => rw [pow10N, ih, pow_succ]; ring

theorem qpow10_eq_zpow (k : ℤ) : qpow10 k = (10 : ℚ) ^ k := by
  unfold qpow10
  rcases le_or_lt 0 k with h | h
  · rw [if_pos h, pow10N_eq, ← zpow_natCast, Int.toNat_of_nonneg h]
  · rw [if_neg (not_le.mpr h), pow10N_eq, ← zpow_natCast,
      Int.toNat_of_nonneg (by omega : (0:ℤ) ≤ -k), ← zpow_neg, neg_neg]

theorem qpow10_pos (k : ℤ) : 0 < qpow10 k := by
  rw [qpow10_eq_zpow]; exact zpow_pos (by norm_num) k

theorem qpow10_mono {m n : ℤ} (h : m ≤ n) : qpow10 m ≤ qpow10 n := by
  rw [qpow10_eq_zpow, qpow10_eq_zpow]; exact zpow_le_zpow_right₀ (by norm_num) h

theorem qpow10_strict_mono {m n : ℤ} (h : m < n) : qpow10 m < qpow10 n := by
  rw [qpow10_eq_zpow, qpow10_eq_zpow]; exact zpow_lt_zpow_right₀ (by norm_num) h

/-! ## Decimal digits: agreement with Mathlib's `Nat.digits` -/

theorem digitsRev_eq (fuel n : ℕ) (h : n ≤ fuel) : digitsRev fuel n = Nat.digits 10 n := by
  induction fuel generalizing n with
  | zero =>
    have hn : n = 0 := by omega
    subst hn; simp [digitsRev]
  | succ fuel ih =>
    cases n with
    | zero => simp [digitsRev]
    | succ n =>
      rw [digitsRev, ih _ (by omega), Nat.digits_def' (by norm_num) (Nat.succ_pos n)]

theorem natDigits_eq (n : ℕ) : natDigits n = Nat.digits 10 n :=
  digitsRev_eq n n le_rfl

theorem natDigits_len (n : ℕ) (h : n ≠ 0) : (natDigits n).length = Nat.log 10 n + 1 := by
  rw [natDigits_eq, Nat.digits_len 10 n (by norm_num) h]

theorem nlog10_eq (n : ℕ) (h : n ≠ 0) : nlog10 n = Nat.log 10 n := by
  unfold nlog10; rw [natDigits_len n h]; omega

/-! ## Rust's truncating `%` on `i32` (`Int.tmod`) reduced to `emod` -/

theorem tmod3_nonneg {e : ℤ} (h : 0 ≤ e) : Int.tmod e 3 = e % 3 :=
  Int.tmod_eq_emod h (by norm_num)

theorem tmod_neg_dividend (a b : ℤ) : Int.tmod (-a) b = -Int.tmod a b := by
  rw [Int.tmod_def, Int.tmod_def, Int.neg_tdiv]; ring

theorem tmod3_nonpos {e : ℤ} (h : e ≤ 0) : Int.tmod e 3 = -((-e) % 3) := by
  rw [show e = -(-e) by ring, tmod_neg_dividend, neg_neg,
    tmod3_nonneg (by omega : (0:ℤ) ≤ -e)]

/-! ## The floor-log10: specification -/

theorem qlog10_of_one_le (a : ℚ) (h1 : 1 ≤ a) :
    qlog10 a = (Nat.log 10 ⌊a⌋.toNat : ℤ) := by
  have hfl : (1:ℤ) ≤ ⌊a⌋ := Int.le_floor.mpr (by exact_mod_cast h1)
  have hm : ⌊a⌋.toNat ≠ 0 := by omega
  unfold qlog10; rw [if_pos h1, nlog10_eq _ hm]

theorem qlog10_spec (a : ℚ) (ha : 0 < a) :
    qpow10 (qlog10 a) ≤ a ∧ a < qpow10 (qlog10 a + 1) := by
  rcases le_or_lt 1 a with h1 | h1
  · have hfl : (1:ℤ) ≤ ⌊a⌋ := Int.le_floor.mpr (by exact_mod_cast h1)
    have hm : ⌊a⌋.toNat ≠ 0 := by omega
    have he : qlog10 a = (Nat.log 10 ⌊a⌋.toNat : ℤ) := qlog10_of_one_le a h1
    set e := Nat.log 10 ⌊a⌋.toNat with hedef
    have hcast : ((⌊a⌋.toNat : ℤ) : ℚ) ≤ a := by
      rw [Int.toNat_of_nonneg (by omega)]; exact Int.floor_le a
    constructor
    · rw [he, qpow10_eq_zpow, zpow_natCast]
      calc (10:ℚ) ^ e = ((10 ^ e : ℕ) : ℚ) := by push_cast; ring
        _ ≤ ((⌊a⌋.toNat : ℕ) : ℚ) := by exact_mod_cast Nat.pow_log_le_self 10 hm
        _ ≤ a := by exact_mod_cast hcast
    · rw [he, qpow10_eq_zpow]
      have h10 : ⌊a⌋.toNat < 10 ^ (e + 1) := Nat.lt_pow_succ_log_self (by norm_num) _
      have hz : ⌊a⌋ + 1 ≤ (10:ℤ) ^ (e + 1) := by
        have : (⌊a⌋ : ℤ) < (10:ℤ) ^ (e + 1) := by
          rw [← Int.toNat_of_nonneg (show (0:ℤ) ≤ ⌊a⌋ by omega)]
          exact_mod_cast h10
        omega
      have h2 : (⌊a⌋ : ℚ) + 1 ≤ (((10:ℤ) ^ (e + 1) : ℤ) : ℚ) := by exact_mod_cast hz
      have h3 : a < (⌊a⌋ : ℚ) + 1 := Int.lt_floor_add_one a
      calc a < (⌊a⌋ : ℚ) + 1 := h3
        _ ≤ (((10:ℤ) ^ (e + 1) : ℤ) : ℚ) := h2
        _ = (10:ℚ) ^ ((e:ℤ) + 1) := by
            rw [show ((e:ℤ) + 1) = ((e + 1 : ℕ) : ℤ) by push_cast; ring, zpow_natCast]
            push_cast; ring
  · have hainv : 1 < a⁻¹ := (one_lt_inv₀ ha).2 h1
    have hfl : (1:ℤ) ≤ ⌊a⁻¹⌋ := Int.le_floor.mpr (by exact_mod_cast hainv.le)
    have hm : ⌊a⁻¹⌋.toNat ≠ 0 := by omega
    set n := Nat.log 10 ⌊a⁻¹⌋.toNat with hndef
    have low : ((10:ℚ)) ^ n ≤ a⁻¹ := by
      calc (10:ℚ) ^ n = ((10 ^ n : ℕ) : ℚ) := by push_cast; ring
        _ ≤ ((⌊a⁻¹⌋.toNat : ℕ) : ℚ) := by exact_mod_cast Nat.pow_log_le_self 10 hm
        _ ≤ a⁻¹ := by
            rw [show ((⌊a⁻¹⌋.toNat : ℕ) : ℚ) = ((⌊a⁻¹⌋.toNat : ℤ) : ℚ) by push_cast; ring,
              Int.toNat_of_nonneg (by omega)]
            exact Int.floor_le _
    have high : a⁻¹ < ((10:ℚ)) ^ (n + 1) := by
      have h10 : ⌊a⁻¹⌋.toNat < 10 ^ (n + 1) := Nat.lt_pow_succ_log_self (by norm_num) _
      have hz : ⌊a⁻¹⌋ + 1 ≤ (10:ℤ) ^ (n + 1) := by
        have : (⌊a⁻¹⌋ : ℤ) < (10:ℤ) ^ (n + 1) := by
          rw [← Int.toNat_of_nonneg (show (0:ℤ) ≤ ⌊a⁻¹⌋ by omega)]
          exact_mod_cast h10
        omega
      have h2 : (⌊a⁻¹⌋ : ℚ) + 1 ≤ ((10 ^ (n + 1) : ℕ) : ℚ) := by exact_mod_cast hz
      exact lt_of_lt_of_le (Int.lt_floor_add_one _) (by push_cast at h2 ⊢; linarith)
    have hP : (0:ℚ) < 10 ^ n := by positivity
    have hP1 : (0:ℚ) < 10 ^ (n + 1) := by positivity
    have key1 : a * (10:ℚ) ^ n ≤ 1 := by
      have := mul_le_mul_of_nonneg_left low ha.le
      rwa [mul_inv_cancel₀ ha.ne'] at this
    have key2 : 1 < a * (10:ℚ) ^ (n + 1) := by
      have := mul_lt_mul_of_pos_left high ha
      rwa [mul_inv_cancel₀ ha.ne'] at this
    have hna : ¬ 1 ≤ a := not_le.mpr h1
    have hrw : nlog10 ⌊a⁻¹⌋.toNat = n := nlog10_eq _ hm
    by_cases hp : a * pow10N (nlog10 ⌊a⁻¹⌋.toNat) = 1
    · have he : qlog10 a = -(n:ℤ) := by
        unfold qlog10; rw [if_neg hna, if_pos hp, hrw]
      rw [hrw, pow10N_eq] at hp
      have ha' : a = ((10:ℚ) ^ n)⁻¹ := by
        rw [eq_div_of_mul_eq hP.ne' hp, one_div]
      constructor
      · rw [he, qpow10_eq_zpow, ha', zpow_neg, zpow_natCast]
      · rw [he, qpow10_eq_zpow, ha', ← zpow_natCast (10:ℚ) n, ← zpow_neg]
        exact zpow_lt_zpow_right₀ (by norm_num) (by omega)
    · have he : qlog10 a = -(n:ℤ) - 1 := by
        unfold qlog10; rw [if_neg hna, if_neg hp, hrw]
      rw [hrw, pow10N_eq] at hp
      constructor
      · rw [he, qpow10_eq_zpow]
        have h1n : (10:ℚ) ^ (-(n:ℤ) - 1) = ((10:ℚ) ^ (n + 1))⁻¹ := by
          rw [show (-(n:ℤ) - 1) = -((n:ℤ) + 1) by ring, zpow_neg,
            show ((n:ℤ) + 1) = ((n + 1 : ℕ) : ℤ) by push_cast; ring, zpow_natCast]
        rw [h1n]
        have : 1 / (10:ℚ) ^ (n + 1) < a := (div_lt_iff₀ hP1).mpr (by linarith)
        rw [one_div] at this
        exact this.le
      · rw [he, show (-(n:ℤ) - 1 + 1) = -(n:ℤ) by ring, qpow10_eq_zpow, zpow_neg, zpow_natCast]
        have hlt : a * (10:ℚ) ^ n < 1 := lt_of_le_of_ne key1 hp
        have : a < 1 / (10:ℚ) ^ n := (lt_div_iff₀ hP).mpr hlt
        rwa [one_div] at this

theorem qlog10_unique (a : ℚ) (ha : 0 < a) (k : ℤ)
    (h1 : qpow10 k ≤ a) (h2 : a < qpow10 (k + 1)) : qlog10 a = k := by
  obtain ⟨l1, l2⟩ := qlog10_spec a ha
  by_contra hne
  rcases lt_or_gt_of_ne hne with h | h
  · have : qpow10 (qlog10 a + 1) ≤ qpow10 k := qpow10_mono (by omega)
    linarith
  · have : qpow10 (k + 1) ≤ qpow10 (qlog10 a) := qpow10_mono (by omega)
    linarith

theorem qlog10_qpow10 (k : ℤ) : qlog10 (qpow10 k) = k :=
  qlog10_unique _ (qpow10_pos k) k le_rfl (qpow10_strict_mono (by omega))

theorem qlog10_one : qlog10 1 = 0 := by
  have := qlog10_qpow10 0
  simpa [qpow10, pow10N] using this

theorem qlog10_nonneg (a : ℚ) (h1 : 1 ≤ a) : 0 ≤ qlog10 a := by
  rw [qlog10_of_one_le a h1]; positivity

theorem qlog10_neg_of_lt_one (a : ℚ) (ha : 0 < a) (h1 : a < 1) : qlog10 a ≤ -1 := by
  by_contra h
  have h0 : 0 ≤ qlog10 a := by omega
  have : qpow10 0 ≤ qpow10 (qlog10 a) := qpow10_mono h0
  have hq0 : qpow10 0 = 1 := rfl
  have := (qlog10_spec a ha).1
  linarith


/-! ## Branch analysis: the engineering exponent and digit count -/

theorem eng_core (a : ℚ) (ha : 0 < a) :
    exp_eng a = qlog10 a - n_left_of_dec a + 1 ∧
    1 ≤ n_left_of_dec a ∧ n_left_of_dec a ≤ 3 ∧ 3 ∣ exp_eng a := by
  rcases lt_trichotomy a 1 with hlt | heq | hgt
  · have he : qlog10 a ≤ -1 := qlog10_neg_of_lt_one a ha hlt
    have hna : ¬ 1 ≤ a := not_le.mpr hlt
    have hne1 : a ≠ 1 := ne_of_lt hlt
    have hnlt : ¬ 1 < a := by linarith
    have hnl : n_left_of_dec a = 3 - Int.tmod (-(qlog10 a + 1)) 3 := by
      unfold n_left_of_dec; rw [if_neg hnlt, if_neg hne1]; split_ifs <;> rfl
    rw [hnl, tmod3_nonneg (by omega : (0:ℤ) ≤ -(qlog10 a + 1))]
    by_cases hP : isPow10 a
    · by_cases hd : (-qlog10 a).toNat % 3 = 0
      · have hdvd : 3 ∣ qlog10 a := by omega
        have hee : exp_eng a = qlog10 a := by
          unfold exp_eng exp_sci
          rw [if_neg hna, if_pos (And.intro hP hd), if_neg hna, if_pos hP,
            Int.tmod_eq_zero_of_dvd hdvd]
          ring
        rw [hee]
        omega
      · have hnd : ¬ 3 ∣ qlog10 a := by omega
        have hee : exp_eng a = qlog10 a - Int.tmod (qlog10 a) 3 - 3 := by
          unfold exp_eng exp_sci
          rw [if_neg hna, if_neg (fun h => hd h.2), if_pos hP, if_neg hna]
        rw [hee, tmod3_nonpos (by omega : qlog10 a ≤ 0)]
        omega
    · have hee : exp_eng a = (qlog10 a + 1) - Int.tmod (qlog10 a + 1) 3 - 3 := by
        unfold exp_eng exp_sci
        rw [if_neg hna, if_neg (fun h => hP h.1), if_neg hP, if_neg hna]
      rw [hee, tmod3_nonpos (by omega : qlog10 a + 1 ≤ 0)]
      omega
  · subst heq
    have hee : exp_eng 1 = 0 := by
      unfold exp_eng exp_sci
      rw [if_pos le_rfl, if_pos le_rfl, qlog10_one]
      rfl
    have hnl : n_left_of_dec 1 = 1 := by
      unfold n_left_of_dec; rw [if_neg (lt_irrefl 1), if_pos rfl]
    rw [hee, hnl, qlog10_one]
    norm_num
  · have h1 : (1:ℚ) ≤ a := hgt.le
    have he0 : 0 ≤ qlog10 a := qlog10_nonneg a h1
    have hee : exp_eng a = qlog10 a - qlog10 a % 3 := by
      unfold exp_eng exp_sci; rw [if_pos h1, if_pos h1, tmod3_nonneg he0]
    have hnl : n_left_of_dec a = qlog10 a % 3 + 1 := by
      unfold n_left_of_dec; rw [if_pos hgt, tmod3_nonneg he0]
    rw [hee, hnl]
    omega

theorem n_left_one_le (a : ℚ) (ha : 0 < a) : 1 ≤ n_left_of_dec a := (eng_core a ha).2.1

theorem n_left_le_three (a : ℚ) (ha : 0 < a) : n_left_of_dec a ≤ 3 := (eng_core a ha).2.2.1

theorem exp_eng_dvd (a : ℚ) (ha : 0 < a) : 3 ∣ exp_eng a := (eng_core a ha).2.2.2

theorem exp_eng_eq (a : ℚ) (ha : 0 < a) :
    exp_eng a = qlog10 a - n_left_of_dec a + 1 := (eng_core a ha).1

/-! ## Mantissa bounds and the rounded value -/

theorem qpow10_add (m n : ℤ) : qpow10 (m + n) = qpow10 m * qpow10 n := by
  rw [qpow10_eq_zpow, qpow10_eq_zpow, qpow10_eq_zpow, zpow_add₀ (by norm_num : (10:ℚ) ≠ 0)]

theorem qpow10_zero : qpow10 0 = 1 := rfl

theorem qpow10_neg_mul_cancel (d : ℤ) : qpow10 (-d) * qpow10 d = 1 := by
  rw [← qpow10_add]; norm_num [qpow10_zero]

theorem qpow10_cast_pow (n : ℕ) : qpow10 (n : ℤ) = (((10:ℤ) ^ n : ℤ) : ℚ) := by
  rw [qpow10_eq_zpow, zpow_natCast]; push_cast; ring

theorem qpow10_toNat (k : ℤ) (h : 0 ≤ k) : qpow10 k = (((10:ℤ) ^ k.toNat : ℤ) : ℚ) := by
  rw [← qpow10_cast_pow, Int.toNat_of_nonneg h]

theorem fmtRound_intCast (z : ℤ) : fmtRound (z : ℚ) = z := by
  unfold fmtRound; rw [Int.floor_intCast]; norm_num

theorem x_base_pre_eq (a : ℚ) (ha : 0 < a) :
    x_base_pre a = a / qpow10 (exp_eng a) := by
  unfold x_base_pre
  split_ifs with h
  · have hdvd := exp_eng_dvd a ha
    have h0 : exp_eng a = 0 := by omega
    rw [h0, qpow10_zero, div_one]
  · rfl

theorem x_base_pre_bounds (a : ℚ) (ha : 0 < a) :
    qpow10 (n_left_of_dec a - 1) ≤ x_base_pre a ∧ x_base_pre a < qpow10 (n_left_of_dec a) := by
  have hspec := qlog10_spec a ha
  have hee := exp_eng_eq a ha
  rw [x_base_pre_eq a ha]
  have hp : (0:ℚ) < qpow10 (exp_eng a) := qpow10_pos _
  constructor
  · rw [le_div_iff₀ hp, ← qpow10_add]
    have h1 : n_left_of_dec a - 1 + exp_eng a = qlog10 a := by omega
    rw [h1]; exact hspec.1
  · rw [div_lt_iff₀ hp, ← qpow10_add]
    have h1 : n_left_of_dec a + exp_eng a = qlog10 a + 1 := by omega
    rw [h1]; exact hspec.2

theorem x_base_pre_pos (a : ℚ) (ha : 0 < a) : 0 < x_base_pre a :=
  lt_of_lt_of_le (qpow10_pos _) (x_base_pre_bounds a ha).1

theorem scaled_bounds (a : ℚ) (ha : 0 < a) (sf : ℕ) :
    qpow10 ((sf:ℤ) - 1) ≤ x_base_pre a * qpow10 ((sf:ℤ) - n_left_of_dec a) ∧
    x_base_pre a * qpow10 ((sf:ℤ) - n_left_of_dec a) < qpow10 (sf:ℤ) := by
  obtain ⟨l, u⟩ := x_base_pre_bounds a ha
  have hp : (0:ℚ) < qpow10 ((sf:ℤ) - n_left_of_dec a) := qpow10_pos _
  constructor
  · have h := mul_le_mul_of_nonneg_right l hp.le
    calc qpow10 ((sf:ℤ) - 1)
        = qpow10 (n_left_of_dec a - 1) * qpow10 ((sf:ℤ) - n_left_of_dec a) := by
          rw [← qpow10_add]; congr 1; ring
      _ ≤ _ := h
  · have h := mul_lt_mul_of_pos_right u hp
    calc x_base_pre a * qpow10 ((sf:ℤ) - n_left_of_dec a)
        < qpow10 (n_left_of_dec a) * qpow10 ((sf:ℤ) - n_left_of_dec a) := h
      _ = qpow10 (sf:ℤ) := by rw [← qpow10_add]; congr 1; ring

theorem round_scaled_bounds (a : ℚ) (ha : 0 < a) (sf : ℕ) (hsf : 1 ≤ sf) :
    (10:ℤ) ^ (sf - 1) ≤ rustRound (x_base_pre a * qpow10 ((sf:ℤ) - n_left_of_dec a)) ∧
    rustRound (x_base_pre a * qpow10 ((sf:ℤ) - n_left_of_dec a)) ≤ (10:ℤ) ^ sf := by
  obtain ⟨l, u⟩ := scaled_bounds a ha sf
  have hs0 : (0:ℚ) ≤ x_base_pre a * qpow10 ((sf:ℤ) - n_left_of_dec a) :=
    le_trans (qpow10_pos _).le l
  unfold rustRound
  rw [if_pos hs0]
  constructor
  · rw [Int.le_floor]
    have hc : (((10:ℤ) ^ (sf - 1) : ℤ) : ℚ) = qpow10 ((sf:ℤ) - 1) := by
      rw [qpow10_toNat _ (by omega : (0:ℤ) ≤ (sf:ℤ) - 1)]
      congr 2
      omega
    rw [hc]
    linarith
  · have hc : qpow10 (sf:ℤ) = (10:ℚ) ^ sf := by rw [qpow10_eq_zpow, zpow_natCast]
    have hlt : x_base_pre a * qpow10 ((sf:ℤ) - n_left_of_dec a) + 1 / 2
        < (((10:ℤ) ^ sf + 1 : ℤ) : ℚ) := by push_cast; rw [← hc]; linarith
    have hfl := Int.floor_lt.mpr hlt
    omega

theorem x_base_fmt (a : ℚ) (sf : ℕ) (ha : 0 < a) :
    fmtRound (x_base a sf * pow10N (max ((sf:ℤ) - n_left_of_dec a) 0).toNat) =
      rustRound (x_base_pre a * qpow10 ((sf:ℤ) - n_left_of_dec a)) *
        10 ^ (n_left_of_dec a - (sf:ℤ)).toNat := by
  rcases le_or_lt 0 ((sf:ℤ) - n_left_of_dec a) with h | h
  · have h1 : max ((sf:ℤ) - n_left_of_dec a) 0 = (sf:ℤ) - n_left_of_dec a := max_eq_left h
    have h2 : (n_left_of_dec a - (sf:ℤ)).toNat = 0 := by omega
    rw [h1, h2, pow_zero, mul_one]
    have hv : x_base a sf * pow10N ((sf:ℤ) - n_left_of_dec a).toNat =
        (rustRound (x_base_pre a * qpow10 ((sf:ℤ) - n_left_of_dec a)) : ℚ) := by
      show (rustRound (x_base_pre a * qpow10 ((sf:ℤ) - n_left_of_dec a)) : ℚ) *
          qpow10 (-((sf:ℤ) - n_left_of_dec a)) * pow10N ((sf:ℤ) - n_left_of_dec a).toNat = _
      rw [show pow10N ((sf:ℤ) - n_left_of_dec a).toNat = qpow10 ((sf:ℤ) - n_left_of_dec a) from
        (if_pos h).symm]
      rw [mul_assoc, qpow10_neg_mul_cancel, mul_one]
    rw [hv, fmtRound_intCast]
  · have h1 : max ((sf:ℤ) - n_left_of_dec a) 0 = 0 := max_eq_right h.le
    rw [h1]
    have hv : x_base a sf * pow10N ((0:ℤ)).toNat =
        ((rustRound (x_base_pre a * qpow10 ((sf:ℤ) - n_left_of_dec a)) *
          10 ^ (n_left_of_dec a - (sf:ℤ)).toNat : ℤ) : ℚ) := by
      show (rustRound (x_base_pre a * qpow10 ((sf:ℤ) - n_left_of_dec a)) : ℚ) *
          qpow10 (-((sf:ℤ) - n_left_of_dec a)) * pow10N ((0:ℤ)).toNat = _
      rw [show ((0:ℤ)).toNat = 0 from rfl, pow10N, mul_one,
        qpow10_toNat _ (by omega : (0:ℤ) ≤ -((sf:ℤ) - n_left_of_dec a))]
      push_cast
      congr 2
      omega
    rw [hv, fmtRound_intCast]

/-! ## Shape of the output for a positive magnitude -/

theorem format_eng_ok (neg : Bool) (a : ℚ) (sf : ℕ) (ha : 0 < a) (hsf : 1 ≤ sf) :
    format_eng neg a (some sf) =
      .ok (fmtF64 neg (x_base a sf) (max ((sf:ℤ) - n_left_of_dec a) 0).toNat ++
        (if exp_eng a = 0 then "" else "e" ++ intDecStr (exp_eng a))) := by
  unfold format_eng
  simp only [Option.getD_some]
  rw [if_neg (by omega : ¬ sf < 1), if_neg (ne_of_gt ha),
    if_neg (not_lt.mpr (n_left_le_three a ha))]
  by_cases h0 : exp_eng a = 0
  · rw [if_pos (show (0:ℤ) ≤ exp_eng a ∧ exp_eng a ≤ 2 by omega), if_pos h0,
      String.append_empty]
  · have hd := exp_eng_dvd a ha
    rw [if_neg (show ¬((0:ℤ) ≤ exp_eng a ∧ exp_eng a ≤ 2) by rintro ⟨h1, h2⟩; omega),
      if_neg h0, String.append_assoc]

/-! ## Characters of rendered digit strings -/

theorem natDigitChar_spec (d : ℕ) (hd : d < 10) :
    (natDigitChar d).isDigit = true ∧ ((natDigitChar d) == '-') = false ∧
    natDigitChar d ≠ '.' ∧ ((natDigitChar d) == 'e') = false ∧
    (natDigitChar d).toNat - 48 = d := by
  interval_cases d <;> exact ⟨rfl, rfl, by decide, rfl, rfl⟩

theorem natDecStr_chars (n : ℕ) :
    ∀ c ∈ (natDecStr n).data, ∃ d, d < 10 ∧ c = natDigitChar d := by
  unfold natDecStr
  split_ifs with h
  · intro c hc
    have : c = '0' := by simpa using hc
    exact ⟨0, by norm_num, by rw [this]; rfl⟩
  · intro c hc
    have hc' : c ∈ (natDigits n).reverse.map natDigitChar := hc
    obtain ⟨d, hd, rfl⟩ := List.mem_map.mp hc'
    refine ⟨d, ?_, rfl⟩
    have : d ∈ Nat.digits 10 n := by
      rw [← natDigits_eq]; exact (List.mem_reverse).mp hd
    exact Nat.digits_lt_base (by norm_num) this

theorem natDecStr_ne_nil (n : ℕ) : (natDecStr n).data ≠ [] := by
  unfold natDecStr
  split_ifs with h
  · simp
  · show ((natDigits n).reverse.map natDigitChar) ≠ []
    simp only [ne_eq, List.map_eq_nil_iff, List.reverse_eq_nil_iff]
    intro hnil
    have := natDigits_len n h
    rw [hnil] at this
    simp at this

theorem natDecStr_data_length (n : ℕ) (h : n ≠ 0) :
    (natDecStr n).data.length = Nat.log 10 n + 1 := by
  unfold natDecStr
  rw [if_neg h]
  show ((natDigits n).reverse.map natDigitChar).length = _
  rw [List.length_map, List.length_reverse, natDigits_len n h]

/-! ## takeWhile / dropWhile over assembled renderings -/

theorem takeWhile_append_all {p : Char → Bool} (l1 l2 : List Char)
    (h1 : ∀ c ∈ l1, p c = true) :
    (l1 ++ l2).takeWhile p = l1 ++ l2.takeWhile p := by
  induction l1 with
  | nil => simp
  | cons c l ih =>
    have hc : p c = true := h1 c (List.mem_cons_self c l)
    simp only [List.cons_append, List.takeWhile_cons, hc, if_true]
    rw [ih (fun x hx => h1 x (List.mem_cons_of_mem _ hx))]

theorem dropWhile_append_all {p : Char → Bool} (l1 l2 : List Char)
    (h1 : ∀ c ∈ l1, p c = true) :
    (l1 ++ l2).dropWhile p = l2.dropWhile p := by
  induction l1 with
  | nil => simp
  | cons c l ih =>
    have hc : p c = true := h1 c (List.mem_cons_self c l)
    simp only [List.cons_append, List.dropWhile_cons, hc, if_true]
    exact ih (fun x hx => h1 x (List.mem_cons_of_mem _ hx))

theorem takeWhile_nil_of_head {p : Char → Bool} (l : List Char)
    (h : l = [] ∨ ∃ c t, l = c :: t ∧ p c = false) : l.takeWhile p = [] := by
  rcases h with rfl | ⟨c, t, rfl, hc⟩
  · rfl
  · simp [List.takeWhile_cons, hc]

/-! ## Parsing renders back -/

theorem digitsVal_aux (l : List ℕ) (h : ∀ d ∈ l, d < 10) :
    digitsVal (l.reverse.map natDigitChar) = Nat.ofDigits 10 l := by
  induction l with
  | nil => rfl
  | cons d l ih =>
    rw [List.reverse_cons, List.map_append]
    show ((l.reverse.map natDigitChar) ++ [natDigitChar d]).foldl
      (fun acc c => 10 * acc + (c.toNat - 48)) 0 = _
    rw [List.foldl_append]
    show 10 * digitsVal (l.reverse.map natDigitChar) + ((natDigitChar d).toNat - 48) = _
    rw [ih (fun x hx => h x (List.mem_cons_of_mem _ hx)),
      (natDigitChar_spec d (h d (List.mem_cons_self d l))).2.2.2.2,
      Nat.ofDigits_cons]
    ring

theorem digitsVal_natDecStr (n : ℕ) : digitsVal (natDecStr n).data = n := by
  unfold natDecStr
  split_ifs with h
  · subst h; rfl
  · show digitsVal ((natDigits n).reverse.map natDigitChar) = n
    rw [natDigits_eq, digitsVal_aux _ (fun d hd => Nat.digits_lt_base (by norm_num) hd),
      Nat.ofDigits_digits]

theorem intDecStr_data (k : ℤ) :
    (intDecStr k).data = (if k < 0 then ['-'] else []) ++ (natDecStr k.natAbs).data := by
  unfold intDecStr
  split_ifs with h
  · rw [String.data_append]
  · rw [String.data_append]

theorem parseIntStr_intDecStr (k : ℤ) : parseIntStr (intDecStr k).data = k := by
  rw [intDecStr_data]
  split_ifs with h
  · show parseIntStr ('-' :: (natDecStr k.natAbs).data) = k
    simp only [parseIntStr]
    rw [if_pos trivial, digitsVal_natDecStr]
    omega
  · rw [List.nil_append]
    obtain ⟨c, t, hct⟩ : ∃ c t, (natDecStr k.natAbs).data = c :: t := by
      rcases hd : (natDecStr k.natAbs).data with _ | ⟨c, t⟩
      · exact absurd hd (natDecStr_ne_nil _)
      · exact ⟨c, t, rfl⟩
    obtain ⟨d, hd10, hcd⟩ := natDecStr_chars k.natAbs c (by rw [hct]; exact List.mem_cons_self c t)
    have hcne : c ≠ '-' := by
      intro hc
      have := (natDigitChar_spec d hd10).2.1
      rw [← hcd, hc] at this
      simp at this
    rw [hct]
    simp only [parseIntStr]
    rw [if_neg hcne, ← hct, digitsVal_natDecStr]
    omega

theorem expSuffix_of_no_e (s : String) (h : ∀ c ∈ s.data, (c == 'e') = false) :
    expSuffix s = none := by
  unfold expSuffix
  have hnil : s.data.dropWhile (fun c => !(c == 'e')) = [] := by
    rw [List.dropWhile_eq_nil_iff]
    intro c hc
    simp [h c hc]
  rw [hnil]

theorem expSuffix_append_e (mant : String) (tail : List Char)
    (h : ∀ c ∈ mant.data, (c == 'e') = false) :
    expSuffix (String.mk (mant.data ++ 'e' :: tail)) = some (parseIntStr tail) := by
  unfold expSuffix
  have hdrop : (mant.data ++ 'e' :: tail).dropWhile (fun c => !(c == 'e')) = 'e' :: tail := by
    rw [dropWhile_append_all _ _ (fun c hc => by simp [h c hc])]
    simp [List.dropWhile_cons]
  rw [show (String.mk (mant.data ++ 'e' :: tail)).data = mant.data ++ 'e' :: tail from rfl, hdrop]

/-! ## The rendered string, decomposed -/

theorem zeroPad_data (n : ℕ) (s : String) :
    (zeroPad n s).data = List.replicate (n - s.length) '0' ++ s.data := by
  unfold zeroPad; rw [String.data_append]

theorem fmtF64_data (neg : Bool) (q : ℚ) (n : ℕ) :
    (fmtF64 neg q n).data =
      (if neg then ['-'] else []) ++
      (natDecStr ((fmtRound (q * pow10N n)).toNat / 10 ^ n)).data ++
      (if n = 0 then [] else
        '.' :: (zeroPad n (natDecStr ((fmtRound (q * pow10N n)).toNat % 10 ^ n))).data) := by
  unfold fmtF64
  cases neg <;> rcases Nat.eq_zero_or_pos n with h | h <;>
    subst_eqs <;>
    simp only [String.data_append, if_true, if_false, Bool.false_eq_true] <;>
    first
      | rfl
      | (rw [if_neg (by omega : ¬ n = 0), if_neg (by omega : ¬ n = 0), String.data_append]; rfl)

theorem rVal_bounds (a : ℚ) (sf : ℕ) (ha : 0 < a) (hsf : 1 ≤ sf) :
    (10:ℤ) ^ (sf - 1) ≤ rVal a sf ∧ rVal a sf ≤ (10:ℤ) ^ sf :=
  round_scaled_bounds a ha sf hsf

theorem rVal_pos (a : ℚ) (sf : ℕ) (ha : 0 < a) (hsf : 1 ≤ sf) : 0 < rVal a sf :=
  lt_of_lt_of_le (by positivity) (rVal_bounds a sf ha hsf).1

theorem fmtRound_x_base (a : ℚ) (sf : ℕ) (ha : 0 < a) (hsf : 1 ≤ sf) :
    fmtRound (x_base a sf * pow10N (nFrac a sf)) = (mVal a sf : ℤ) := by
  have hx := x_base_fmt a sf ha
  have hrpos : 0 ≤ rVal a sf := (rVal_pos a sf ha hsf).le
  unfold nFrac mVal
  rw [hx]
  push_cast [Int.toNat_of_nonneg hrpos]
  rfl

theorem suffix_data (ee : ℤ) :
    (if ee = 0 then "" else "e" ++ intDecStr ee).data =
      (if ee = 0 then [] else 'e' :: (intDecStr ee).data) := by
  split_ifs with h
  · rfl
  · rw [String.data_append]
    rfl

theorem format_eng_strform (neg : Bool) (a : ℚ) (sf : ℕ) (ha : 0 < a) (hsf : 1 ≤ sf) :
    format_eng neg a (some sf) = .ok (String.mk (
      (if neg then ['-'] else []) ++ (natDecStr (ipVal a sf)).data ++
      ((if nFrac a sf = 0 then [] else
        '.' :: (zeroPad (nFrac a sf) (natDecStr (mVal a sf % 10 ^ nFrac a sf))).data) ++
      (if exp_eng a = 0 then [] else 'e' :: (intDecStr (exp_eng a)).data)))) := by
  rw [format_eng_ok neg a sf ha hsf]
  congr 1
  apply String.ext
  show (fmtF64 neg (x_base a sf) (nFrac a sf) ++
      (if exp_eng a = 0 then "" else "e" ++ intDecStr (exp_eng a))).data = _
  rw [String.data_append, fmtF64_data, fmtRound_x_base a sf ha hsf, Int.toNat_natCast,
    suffix_data]
  unfold ipVal
  show _ ++ _ ++ _ = _
  rw [List.append_assoc]

theorem ipVal_bounds (a : ℚ) (sf : ℕ) (ha : 0 < a) (hsf : 1 ≤ sf) :
    10 ^ ((n_left_of_dec a).toNat - 1) ≤ ipVal a sf ∧
    ipVal a sf ≤ 10 ^ (n_left_of_dec a).toNat ∧
    (ipVal a sf = 10 ^ (n_left_of_dec a).toNat ↔ rVal a sf = (10:ℤ) ^ sf) := by
  obtain ⟨hl, hu⟩ := rVal_bounds a sf ha hsf
  have hr0 : 0 < rVal a sf := rVal_pos a sf ha hsf
  have hnl1 := n_left_one_le a ha
  have hnl3 := n_left_le_three a ha
  have hcast1 : ((10 ^ (sf - 1) : ℕ) : ℤ) = (10:ℤ) ^ (sf - 1) := by push_cast; ring
  have hcast2 : ((10 ^ sf : ℕ) : ℤ) = (10:ℤ) ^ sf := by push_cast; ring
  set nl := (n_left_of_dec a).toNat with hnldef
  set R := (rVal a sf).toNat with hRdef
  have hRl : 10 ^ (sf - 1) ≤ R := by omega
  have hRu : R ≤ 10 ^ sf := by omega
  rcases le_or_lt (n_left_of_dec a) (sf:ℤ) with hc | hc
  · have hnf : nFrac a sf = sf - nl := by unfold nFrac; omega
    have hm0 : (n_left_of_dec a - (sf:ℤ)).toNat = 0 := by omega
    have hmR : mVal a sf = R := by
      unfold mVal; rw [hm0, pow_zero, Nat.mul_one]
    have hip : ipVal a sf = R / 10 ^ (sf - nl) := by
      unfold ipVal; rw [hmR, hnf]
    have hnlsf : nl ≤ sf := by omega
    refine ⟨?_, ?_, ?_, ?_⟩
    · rw [hip, Nat.le_div_iff_mul_le (by positivity)]
      calc 10 ^ (nl - 1) * 10 ^ (sf - nl) = 10 ^ (sf - 1) := by
            rw [← pow_add]; congr 1; omega
        _ ≤ R := hRl
    · rw [hip]
      calc R / 10 ^ (sf - nl) ≤ 10 ^ sf / 10 ^ (sf - nl) := Nat.div_le_div_right hRu
        _ = 10 ^ nl := by rw [Nat.pow_div (by omega) (by norm_num)]; congr 1; omega
    · rw [hip]
      intro h
      have h1 : 10 ^ nl * 10 ^ (sf - nl) ≤ R := by
        rw [← h]; exact Nat.div_mul_le_self R _
      have h2 : (10:ℕ) ^ nl * 10 ^ (sf - nl) = 10 ^ sf := by
        rw [← pow_add]; congr 1; omega
      omega
    · intro h
      have hre : R = 10 ^ sf := by omega
      rw [hip, hre, Nat.pow_div (by omega) (by norm_num)]
      congr 1
      omega
  · have hnf : nFrac a sf = 0 := by unfold nFrac; omega
    have hmv : mVal a sf = R * 10 ^ (nl - sf) := by
      unfold mVal; rw [show (n_left_of_dec a - (sf:ℤ)).toNat = nl - sf by omega]
    have hip : ipVal a sf = R * 10 ^ (nl - sf) := by
      unfold ipVal; rw [hmv, hnf, pow_zero, Nat.div_one]
    have h2 : (10:ℕ) ^ nl = 10 ^ sf * 10 ^ (nl - sf) := by
      rw [← pow_add]; congr 1; omega
    refine ⟨?_, ?_, ?_, ?_⟩
    · rw [hip]
      calc (10:ℕ) ^ (nl - 1) = 10 ^ (sf - 1) * 10 ^ (nl - sf) := by
            rw [← pow_add]; congr 1; omega
        _ ≤ R * 10 ^ (nl - sf) := Nat.mul_le_mul_right _ hRl
    · rw [hip, h2]
      exact Nat.mul_le_mul_right _ hRu
    · rw [hip, h2]
      intro h
      have := Nat.eq_of_mul_eq_mul_right (show 0 < (10:ℕ) ^ (nl - sf) by positivity) h
      omega
    · intro h
      have hre : R = 10 ^ sf := by omega
      rw [hip, hre, h2]

/-! ## Parsing the rendered string -/

theorem dropWhile_minus_render (neg : Bool) (m : ℕ) (rest : List Char) :
    ((if neg then ['-'] else []) ++ (natDecStr m).data ++ rest).dropWhile (fun c => c == '-') =
      (natDecStr m).data ++ rest := by
  obtain ⟨c, t, hct⟩ : ∃ c t, (natDecStr m).data = c :: t := by
    rcases hd : (natDecStr m).data with _ | ⟨c, t⟩
    · exact absurd hd (natDecStr_ne_nil _)
    · exact ⟨c, t, rfl⟩
  obtain ⟨d, hd10, hcd⟩ := natDecStr_chars m c (by rw [hct]; exact List.mem_cons_self c t)
  have hcm : (c == '-') = false := by rw [hcd]; exact (natDigitChar_spec d hd10).2.1
  have key : ((natDecStr m).data ++ rest).dropWhile (fun c => c == '-') =
      (natDecStr m).data ++ rest := by
    rw [hct, List.cons_append, List.dropWhile_cons, hcm]
    simp
  cases neg
  · simpa using key
  · simp only [if_pos trivial, List.singleton_append, List.append_assoc] at *
    exact key

theorem intDigitChars_render (neg : Bool) (m : ℕ) (rest : List Char)
    (hrest : rest = [] ∨ ∃ c t, rest = c :: t ∧ c.isDigit = false) :
    intDigitChars (String.mk ((if neg then ['-'] else []) ++ (natDecStr m).data ++ rest)) =
      (natDecStr m).data := by
  have hdig : ∀ c ∈ (natDecStr m).data, (fun c => c.isDigit) c = true := by
    intro c hc
    obtain ⟨d, hd, rfl⟩ := natDecStr_chars m c hc
    exact (natDigitChar_spec d hd).1
  unfold intDigitChars
  show (((if neg then ['-'] else []) ++ (natDecStr m).data ++ rest).dropWhile
      (fun c => c == '-')).takeWhile (fun c => c.isDigit) = _
  rw [dropWhile_minus_render, takeWhile_append_all _ _ hdig,
    takeWhile_nil_of_head rest hrest, List.append_nil]

theorem intDigitsOf_eq_chars_len (s : String) : intDigitsOf s = (intDigitChars s).length := rfl

theorem render_core_no_e (neg : Bool) (m : ℕ) (frac : List Char)
    (hfrac : ∀ c ∈ frac, (c == 'e') = false) :
    ∀ c ∈ (if neg then ['-'] else []) ++ (natDecStr m).data ++ frac, (c == 'e') = false := by
  intro c hc
  rcases List.mem_append.mp hc with hc1 | hc2
  · rcases List.mem_append.mp hc1 with hc0 | hcd
    · cases neg
      · simp at hc0
      · have : c = '-' := by simpa using hc0
        rw [this]; rfl
    · obtain ⟨d, hd, rfl⟩ := natDecStr_chars m c hcd
      exact (natDigitChar_spec d hd).2.2.2.1
  · exact hfrac c hc2

theorem frac_no_e (n k : ℕ) :
    ∀ c ∈ (if n = 0 then ([] : List Char) else '.' :: (zeroPad n (natDecStr k)).data),
      (c == 'e') = false := by
  split_ifs with h
  · intro c hc; simp at hc
  · intro c hc
    rcases List.mem_cons.mp hc with rfl | hc2
    · rfl
    · rw [zeroPad_data] at hc2
      rcases List.mem_append.mp hc2 with hc3 | hc4
      · rw [List.eq_of_mem_replicate hc3]; rfl
      · obtain ⟨d, hd, rfl⟩ := natDecStr_chars k c hc4
        exact (natDigitChar_spec d hd).2.2.2.1

theorem frac_no_dot_of_nil (c : Char) (h : c ∈ ([] : List Char)) : c = '.' → False := by
  simp at h

theorem intDecStr_chars (k : ℤ) :
    ∀ c ∈ (intDecStr k).data, c = '-' ∨ ∃ d, d < 10 ∧ c = natDigitChar d := by
  rw [intDecStr_data]
  intro c hc
  rcases List.mem_append.mp hc with h1 | h2
  · left
    split_ifs at h1
    · simpa using h1
    · simp at h1
  · exact Or.inr (natDecStr_chars k.natAbs c h2)

theorem ipVal_pos (a : ℚ) (sf : ℕ) (ha : 0 < a) (hsf : 1 ≤ sf) : 0 < ipVal a sf :=
  lt_of_lt_of_le (by positivity) (ipVal_bounds a sf ha hsf).1

theorem format_eng_props (neg : Bool) (a : ℚ) (sf : ℕ) (ha : 0 < a) (hsf : 1 ≤ sf) :
    ∃ s : String, format_eng neg a (some sf) = .ok s ∧
      intDigitChars s = (natDecStr (ipVal a sf)).data ∧
      intDigitsOf s = Nat.log 10 (ipVal a sf) + 1 ∧
      expSuffix s = (if exp_eng a = 0 then none else some (exp_eng a)) ∧
      (nFrac a sf = 0 → ∀ c ∈ s.data, c ≠ '.') := by
  refine ⟨_, format_eng_strform neg a sf ha hsf, ?_, ?_, ?_, ?_⟩
  case _ =>
    apply intDigitChars_render
    by_cases h1 : nFrac a sf = 0
    · rw [if_pos h1, List.nil_append]
      by_cases h2 : exp_eng a = 0
      · rw [if_pos h2]; exact Or.inl rfl
      · rw [if_neg h2]; exact Or.inr ⟨'e', _, rfl, by decide⟩
    · rw [if_neg h1, List.cons_append]; exact Or.inr ⟨'.', _, rfl, by decide⟩
  case _ =>
    rw [intDigitsOf_eq_chars_len]
    have h1 : intDigitChars (String.mk
        ((if neg then ['-'] else []) ++ (natDecStr (ipVal a sf)).data ++
          ((if nFrac a sf = 0 then [] else
            '.' :: (zeroPad (nFrac a sf) (natDecStr (mVal a sf % 10 ^ nFrac a sf))).data) ++
          (if exp_eng a = 0 then [] else 'e' :: (intDecStr (exp_eng a)).data)))) =
        (natDecStr (ipVal a sf)).data := by
      apply intDigitChars_render
      by_cases h1 : nFrac a sf = 0
      · rw [if_pos h1, List.nil_append]
        by_cases h2 : exp_eng a = 0
        · rw [if_pos h2]; exact Or.inl rfl
        · rw [if_neg h2]; exact Or.inr ⟨'e', _, rfl, by decide⟩
      · rw [if_neg h1, List.cons_append]; exact Or.inr ⟨'.', _, rfl, by decide⟩
    rw [h1, natDecStr_data_length _ (ipVal_pos a sf ha hsf).ne']
  case _ =>
    have hcore : ∀ c ∈ (if neg then ['-'] else []) ++ (natDecStr (ipVal a sf)).data ++
        (if nFrac a sf = 0 then [] else
          '.' :: (zeroPad (nFrac a sf) (natDecStr (mVal a sf % 10 ^ nFrac a sf))).data),
        (c == 'e') = false :=
      render_core_no_e neg _ _ (frac_no_e _ _)
    by_cases h2 : exp_eng a = 0
    · simp only [if_pos h2]
      apply expSuffix_of_no_e
      intro c hc
      replace hc : c ∈ (if neg then ['-'] else []) ++ (natDecStr (ipVal a sf)).data ++
          ((if nFrac a sf = 0 then [] else
            '.' :: (zeroPad (nFrac a sf) (natDecStr (mVal a sf % 10 ^ nFrac a sf))).data) ++
          ([] : List Char)) := hc
      rw [List.append_nil] at hc
      exact hcore c hc
    · simp only [if_neg h2]
      have hshape : (String.mk ((if neg then ['-'] else []) ++ (natDecStr (ipVal a sf)).data ++
          ((if nFrac a sf = 0 then [] else
            '.' :: (zeroPad (nFrac a sf) (natDecStr (mVal a sf % 10 ^ nFrac a sf))).data) ++
          ('e' :: (intDecStr (exp_eng a)).data)))) =
          String.mk ((String.mk ((if neg then ['-'] else []) ++
            (natDecStr (ipVal a sf)).data ++
            (if nFrac a sf = 0 then [] else
              '.' :: (zeroPad (nFrac a sf) (natDecStr (mVal a sf % 10 ^ nFrac a sf))).data))).data
            ++ 'e' :: (intDecStr (exp_eng a)).data) := by
        apply String.ext
        show ((if neg then ['-'] else []) ++ (natDecStr (ipVal a sf)).data ++
          ((if nFrac a sf = 0 then [] else
            '.' :: (zeroPad (nFrac a sf) (natDecStr (mVal a sf % 10 ^ nFrac a sf))).data) ++
          ('e' :: (intDecStr (exp_eng a)).data))) =
          ((if neg then ['-'] else []) ++ (natDecStr (ipVal a sf)).data ++
          (if nFrac a sf = 0 then [] else
            '.' :: (zeroPad (nFrac a sf) (natDecStr (mVal a sf % 10 ^ nFrac a sf))).data))
          ++ 'e' :: (intDecStr (exp_eng a)).data
        simp [List.append_assoc]
      rw [hshape, expSuffix_append_e _ _ hcore, parseIntStr_intDecStr]
  case _ =>
    intro h0 c hc
    have hdata : (String.mk ((if neg then ['-'] else []) ++ (natDecStr (ipVal a sf)).data ++
        ((if nFrac a sf = 0 then [] else
          '.' :: (zeroPad (nFrac a sf) (natDecStr (mVal a sf % 10 ^ nFrac a sf))).data) ++
        (if exp_eng a = 0 then [] else 'e' :: (intDecStr (exp_eng a)).data)))).data =
        (if neg then ['-'] else []) ++ (natDecStr (ipVal a sf)).data ++
        ([] ++ (if exp_eng a = 0 then [] else 'e' :: (intDecStr (exp_eng a)).data)) := by
      show _ ++ _ ++ (_ ++ _) = _
      rw [if_pos h0]
    rw [hdata] at hc
    rcases List.mem_append.mp hc with hc1 | hc2
    · rcases List.mem_append.mp hc1 with hc0 | hcd
      · cases neg
        · simp at hc0
        · have : c = '-' := by simpa using hc0
          rw [this]; decide
      · obtain ⟨d, hd, rfl⟩ := natDecStr_chars _ c hcd
        exact (natDigitChar_spec d hd).2.2.1
    · rw [List.nil_append] at hc2
      by_cases h2 : exp_eng a = 0
      · rw [if_pos h2] at hc2; simp at hc2
      · rw [if_neg h2] at hc2
        rcases List.mem_cons.mp hc2 with rfl | hc3
        · decide
        · rcases intDecStr_chars _ c hc3 with rfl | ⟨d, hd, rfl⟩
          · decide
          · exact (natDigitChar_spec d hd).2.2.1

theorem digit_count_cases (a : ℚ) (sf : ℕ) (ha : 0 < a) (hsf : 1 ≤ sf) :
    Nat.log 10 (ipVal a sf) + 1 = (n_left_of_dec a).toNat ∨
    (Nat.log 10 (ipVal a sf) + 1 = (n_left_of_dec a).toNat + 1 ∧ rVal a sf = (10:ℤ) ^ sf) := by
  obtain ⟨hl, hu, hiff⟩ := ipVal_bounds a sf ha hsf
  have hnl1 := n_left_one_le a ha
  rcases lt_or_eq_of_le hu with hlt | heq
  · left
    have hlog : Nat.log 10 (ipVal a sf) = (n_left_of_dec a).toNat - 1 :=
      Nat.log_eq_of_pow_le_of_lt_pow hl (by
        rw [show (n_left_of_dec a).toNat - 1 + 1 = (n_left_of_dec a).toNat by omega]
        exact hlt)
    omega
  · right
    refine ⟨?_, hiff.mp heq⟩
    rw [heq, Nat.log_pow (by norm_num : 1 < 10)]

theorem nFrac_eq_zero (a : ℚ) (sf : ℕ) (h : (sf:ℤ) ≤ n_left_of_dec a) : nFrac a sf = 0 := by
  unfold nFrac; omega

theorem qpow10_neg_inv (d : ℤ) : qpow10 (-d) = (qpow10 d)⁻¹ := by
  rw [qpow10_eq_zpow, qpow10_eq_zpow, zpow_neg]

theorem specScaleRoundRescale_x_base (a : ℚ) (sf : ℕ) :
    specScaleRoundRescale (x_base_pre a) ((sf:ℤ) - n_left_of_dec a) = x_base a sf := by
  unfold specScaleRoundRescale x_base
  show _ = (rustRound (x_base_pre a * qpow10 ((sf:ℤ) - n_left_of_dec a)) : ℚ) *
    qpow10 (-((sf:ℤ) - n_left_of_dec a))
  rw [div_eq_mul_inv, qpow10_neg_inv]

theorem format_eng_zero (neg : Bool) (sf : ℕ) (hsf : 1 ≤ sf) :
    format_eng neg 0 (some sf) =
      .ok ((if neg then "-" else "") ++
        (if sf = 1 then "0" else "0." ++ String.mk (List.replicate (sf - 1) '0'))) := by
  unfold format_eng
  simp only [Option.getD_some]
  rw [if_neg (by omega : ¬ sf < 1), if_pos trivial]
  congr 1
  unfold fmtF64
  have h0 : fmtRound ((0:ℚ) * pow10N (sf - 1)) = 0 := by
    rw [zero_mul, show (0:ℚ) = ((0:ℤ) : ℚ) by norm_num, fmtRound_intCast]
  rw [h0]
  simp only [Int.toNat_zero, Nat.zero_div, Nat.zero_mod]
  rcases eq_or_lt_of_le hsf with h1 | h1
  · subst h1
    cases neg <;> rfl
  · rw [if_neg (by omega : ¬ sf - 1 = 0), if_neg (by omega : ¬ sf = 1)]
    apply String.ext
    have hrep : List.replicate (sf - 1 - 1) '0' ++ ['0'] = List.replicate (sf - 1) '0' := by
      rw [← List.replicate_succ']
      congr 1
      omega
    simp only [String.data_append, zeroPad_data]
    rw [show natDecStr 0 = "0" from rfl]
    rw [show ("0" : String).length = 1 from rfl, show ("0" : String).data = ['0'] from rfl]
    rw [← hrep]
    simp [List.append_assoc]

/-! ## The claims -/

/-- C1: the carry case of step 6 is not implemented by the source: rounding
`9.9996` at 3 significant figures carries the mantissa to `10`, and the
source prints it with the pre-rounding digit bookkeeping (`n_left = 1`,
two fractional digits), producing `"10.00"` — not the `"10.0"` required by
the specification's regression test. -/
theorem c1_no_carry_eval : format_engQ (99996 / 10000) (some 3) = .ok "10.00" := by decide

/-- C2: evaluating the source at `x = 999.96`, `sf = 3`: rounding carries the
mantissa to `1000` and the printed integer part has 4 digits, violating the
claimed 1–3 digit invariant (no post-rounding re-check exists in the code). -/
theorem c2_four_digits_eval :
    format_engQ (99996 / 100) (some 3) = .ok "1000" ∧ intDigitsOf "1000" = 4 := by
  constructor <;> decide

/-- C3: for every nonzero `x` and `sf ≥ 1`, whenever the output of
`format_eng` carries an `e` suffix, the signed integer printed after the
`e` is an integer multiple of 3. -/
theorem c3_exp_multiple_of_three (x : ℚ) (sf : ℕ) (hx : x ≠ 0) (hsf : 1 ≤ sf) :
    ∃ s, format_engQ x (some sf) = .ok s ∧
      (expSuffix s = none ∨ ∃ k : ℤ, expSuffix s = some (3 * k)) := by
  have ha : 0 < |x| := abs_pos.mpr hx
  obtain ⟨s, hok, _, _, hexp, _⟩ := format_eng_props (decide (x < 0)) |x| sf ha hsf
  refine ⟨s, hok, ?_⟩
  by_cases h : exp_eng |x| = 0
  · left
    rw [hexp, if_pos h]
  · right
    obtain ⟨k, hk⟩ := exp_eng_dvd |x| ha
    exact ⟨k, by rw [hexp, if_neg h, hk]⟩

theorem c3_witness : (2:ℚ) ≠ 0 ∧ 1 ≤ 3 ∧
    (∃ s, format_engQ 2 (some 3) = .ok s ∧
      (expSuffix s = none ∨ ∃ k : ℤ, expSuffix s = some (3 * k))) :=
  ⟨by norm_num, by norm_num, c3_exp_multiple_of_three 2 3 (by norm_num) (by norm_num)⟩

/-- C4 counterexample: at `sf = 1` the zero special case prints `"0"` (Rust's
`{:.0}` prints no decimal point), not the `"0."` the claim asserts. -/
theorem c4_counterexample :
    format_engQ 0 (some 1) = .ok "0" ∧ ("0" : String) ≠ "0." := by
  constructor <;> decide

/-- C4 (amended): for `sf ≥ 2`, `format_eng(0.0, Some(sf))` returns `"0."`
followed by `sf - 1` zero digits and no exponent suffix; for `sf = 1` it
returns `"0"` with no decimal point and no exponent suffix. -/
theorem c4_zero_format (sf : ℕ) (hsf : 1 ≤ sf) :
    format_engQ 0 (some sf) =
      .ok (if sf = 1 then "0" else "0." ++ String.mk (List.replicate (sf - 1) '0')) ∧
    expSuffix (if sf = 1 then "0" else "0." ++ String.mk (List.replicate (sf - 1) '0')) =
      none := by
  constructor
  · show format_eng (decide ((0:ℚ) < 0)) |(0:ℚ)| (some sf) = _
    rw [show (decide ((0:ℚ) < 0)) = false by decide, show |(0:ℚ)| = 0 by simp,
      format_eng_zero false sf hsf]
    exact rfl
  · apply expSuffix_of_no_e
    intro c hc
    split_ifs at hc with h
    · have : c = '0' := by simpa using hc
      rw [this]; rfl
    · rw [String.data_append] at hc
      rcases List.mem_append.mp hc with h1 | h2
      · have : c = '0' ∨ c = '.' := by simpa using h1
        rcases this with rfl | rfl <;> rfl
      · rw [List.eq_of_mem_replicate h2]; rfl

theorem c4_witness : 1 ≤ 3 ∧
    (format_engQ 0 (some 3) =
        .ok (if 3 = 1 then "0" else "0." ++ String.mk (List.replicate (3 - 1) '0')) ∧
      expSuffix (if 3 = 1 then "0" else "0." ++ String.mk (List.replicate (3 - 1) '0')) =
        none) :=
  ⟨by norm_num, c4_zero_format 3 (by norm_num)⟩

/-- C5: `format_eng` fails, with the `InvalidArgument` message naming the
minimum significant-figure constraint, exactly when `sf < 1`; for every
finite `x` and `sf ≥ 1` it returns a string (in particular the internal
`n_left_of_dec ≤ 3` assertion never fires). -/
theorem c5_error_iff (x : ℚ) (sf : ℕ) :
    (format_engQ x (some sf) = .error "`format_eng` arg `sf` must be at least 1." ↔ sf < 1) ∧
    ((∃ s, format_engQ x (some sf) = .ok s) ↔ 1 ≤ sf) := by
  by_cases h : sf < 1
  · have he : format_engQ x (some sf) = .error "`format_eng` arg `sf` must be at least 1." := by
      unfold format_engQ format_eng
      simp only [Option.getD_some]
      rw [if_pos h]
    refine ⟨⟨fun _ => h, fun _ => he⟩, ?_, fun h1 => by omega⟩
    rintro ⟨s, hs⟩
    rw [he] at hs
    cases hs
  · have h1 : 1 ≤ sf := by omega
    have hok : ∃ s, format_engQ x (some sf) = .ok s := by
      by_cases hx : |x| = 0
      · refine ⟨(if decide (x < 0) then "-" else "") ++
          (if sf = 1 then "0" else "0." ++ String.mk (List.replicate (sf - 1) '0')), ?_⟩
        show format_eng (decide (x < 0)) |x| (some sf) = _
        rw [hx]
        exact format_eng_zero _ sf h1
      · have ha : 0 < |x| := lt_of_le_of_ne (abs_nonneg x) (Ne.symm hx)
        exact ⟨_, format_eng_ok (decide (x < 0)) |x| sf ha h1⟩
    obtain ⟨s, hs⟩ := hok
    constructor
    · refine ⟨fun hE => ?_, fun h2 => by omega⟩
      rw [hE] at hs
      cases hs
    · exact ⟨fun _ => h1, fun _ => ⟨s, hs⟩⟩

/-- C7: at the exact power of ten `x = 0.001` the integral-log10 branch
resolves the exponent at the top of the decade: the default-precision output
is `"1.00e-3"` (exponent `-3`, one digit left of the point), not `"1000e-6"`. -/
theorem c7_power_of_ten_boundary : format_engQ (1 / 1000) none = .ok "1.00e-3" := by decide

/-- C8: the mantissa handed to the final string rendering is exactly the
scale-round-rescale of the scaled mantissa at `sf - n_left_of_dec` digits:
multiplied by `10^(sf - n_left)`, rounded to the nearest integer with ties
away from zero (`rustRound`), and divided back — before any string is
produced. -/
theorem c8_scale_round_rescale (x : ℚ) (sf : ℕ) (hx : x ≠ 0) (hsf : 1 ≤ sf) :
    ∃ tail, format_engQ x (some sf) =
      .ok (fmtF64 (decide (x < 0))
        (specScaleRoundRescale (x_base_pre |x|) ((sf:ℤ) - n_left_of_dec |x|))
        (max ((sf:ℤ) - n_left_of_dec |x|) 0).toNat ++ tail) := by
  have ha : 0 < |x| := abs_pos.mpr hx
  refine ⟨(if exp_eng |x| = 0 then "" else "e" ++ intDecStr (exp_eng |x|)), ?_⟩
  show format_eng (decide (x < 0)) |x| (some sf) = _
  rw [specScaleRoundRescale_x_base]
  exact format_eng_ok _ _ sf ha hsf

theorem c8_witness : (2:ℚ) ≠ 0 ∧ 1 ≤ 3 ∧
    (∃ tail, format_engQ 2 (some 3) =
      .ok (fmtF64 (decide ((2:ℚ) < 0))
        (specScaleRoundRescale (x_base_pre |(2:ℚ)|) ((3:ℤ) - n_left_of_dec |(2:ℚ)|))
        (max ((3:ℤ) - n_left_of_dec |(2:ℚ)|) 0).toNat ++ tail)) :=
  ⟨by norm_num, by norm_num, c8_scale_round_rescale 2 3 (by norm_num) (by norm_num)⟩

/-- C9: for `sf ≥ 2`, negative zero takes the zero special case but keeps its
sign bit: the result is `"-0."` followed by `sf - 1` zeros, which differs
from the result for positive zero. -/
theorem c9_negative_zero (sf : ℕ) (hsf : 2 ≤ sf) :
    format_eng true 0 (some sf) =
      .ok ("-0." ++ String.mk (List.replicate (sf - 1) '0')) ∧
    format_eng true 0 (some sf) ≠ format_eng false 0 (some sf) := by
  have h1 : 1 ≤ sf := by omega
  have hT := format_eng_zero true sf h1
  have hF := format_eng_zero false sf h1
  rw [if_neg (by omega : ¬ sf = 1)] at hT hF
  constructor
  · rw [hT]
    exact rfl
  · rw [hT, hF]
    intro hEq
    have h2 := congrArg String.data (Except.ok.inj hEq)
    simp [String.data_append] at h2

theorem c9_witness : 2 ≤ 3 ∧
    (format_eng true 0 (some 3) = .ok ("-0." ++ String.mk (List.replicate (3 - 1) '0')) ∧
      format_eng true 0 (some 3) ≠ format_eng false 0 (some 3)) :=
  ⟨by norm_num, c9_negative_zero 3 (by norm_num)⟩

/-- C10 counterexample: at `x = 999.96`, `sf = 1` (so `sf` is smaller than
`n_left_of_dec = 3`), rounding carries and the output `"1000"` shows 4 integer
digits, not the `n_left_of_dec` digits the claim asserts. -/
theorem c10_counterexample :
    format_engQ (99996 / 100) (some 1) = .ok "1000" ∧
    n_left_of_dec |(99996 / 100 : ℚ)| = 3 ∧ intDigitsOf "1000" = 4 := by
  refine ⟨by decide, by decide, by decide⟩

/-- C10 (amended): when `sf < n_left_of_dec` and the engineering exponent is
above `-309` — so `10_f64.powi(exp_eng)` is a finite nonzero double and the
exact-rational scaling model is faithful; for smaller magnitudes (|x| below
about 1e-306) the source's `powi` underflows to `0.0`, `x_base` becomes
infinite, and the program prints an `inf` mantissa such as `"infe-309"` —
the requested fractional digit count is clamped to 0: the output has no
decimal point, shows more than `sf` integer digits — `n_left_of_dec` of
them, or `n_left_of_dec + 1` when rounding carries — and the printed
integer is a multiple of `10^(n_left_of_dec - sf)`, i.e. its trailing
digits are zeros. -/
theorem c10_clamped (x : ℚ) (sf : ℕ) (hx : x ≠ 0) (hsf : 1 ≤ sf)
    (hpow : (-309 : ℤ) < exp_eng |x|)
    (hlt : (sf:ℤ) < n_left_of_dec |x|) :
    ∃ s, format_engQ x (some sf) = .ok s ∧
      (∀ c ∈ s.data, c ≠ '.') ∧
      sf < intDigitsOf s ∧
      (intDigitsOf s = (n_left_of_dec |x|).toNat ∨
        intDigitsOf s = (n_left_of_dec |x|).toNat + 1) ∧
      ∃ m : ℕ, intDigitChars s = (natDecStr m).data ∧
        10 ^ ((n_left_of_dec |x|).toNat - sf) ∣ m := by
  have ha : 0 < |x| := abs_pos.mpr hx
  have hnf : nFrac |x| sf = 0 := nFrac_eq_zero _ _ (by omega)
  obtain ⟨s, hok, hchars, hcount, hexp, hdot⟩ :=
    format_eng_props (decide (x < 0)) |x| sf ha hsf
  refine ⟨s, hok, hdot hnf, ?_, ?_, ?_⟩
  · rw [hcount]
    rcases digit_count_cases |x| sf ha hsf with h | ⟨h, _⟩ <;> omega
  · rw [hcount]
    rcases digit_count_cases |x| sf ha hsf with h | ⟨h, _⟩
    · left; exact h
    · right; exact h
  · refine ⟨mVal |x| sf, ?_, ?_⟩
    · rw [hchars]
      congr 1
      unfold ipVal
      rw [hnf, pow_zero, Nat.div_one]
    · unfold mVal
      rw [show (n_left_of_dec |x| - (sf:ℤ)).toNat = (n_left_of_dec |x|).toNat - sf by omega]
      exact dvd_mul_left _ _

theorem c10_witness : (6283185307 / 10 ^ 4 : ℚ) ≠ 0 ∧ 1 ≤ 1 ∧
    (-309 : ℤ) < exp_eng |(6283185307 / 10 ^ 4 : ℚ)| ∧
    ((1:ℕ):ℤ) < n_left_of_dec |(6283185307 / 10 ^ 4 : ℚ)| ∧
    (∃ s, format_engQ (6283185307 / 10 ^ 4) (some 1) = .ok s ∧
      (∀ c ∈ s.data, c ≠ '.') ∧
      1 < intDigitsOf s ∧
      (intDigitsOf s = (n_left_of_dec |(6283185307 / 10 ^ 4 : ℚ)|).toNat ∨
        intDigitsOf s = (n_left_of_dec |(6283185307 / 10 ^ 4 : ℚ)|).toNat + 1) ∧
      ∃ m : ℕ, intDigitChars s = (natDecStr m).data ∧
        10 ^ ((n_left_of_dec |(6283185307 / 10 ^ 4 : ℚ)|).toNat - 1) ∣ m) :=
  ⟨by norm_num, le_rfl, by decide, by decide,
    c10_clamped (6283185307 / 10 ^ 4) 1 (by norm_num) le_rfl (by decide) (by decide)⟩
